import Mathlib

/-!
# Verification of the medical-reports-tracker trend aggregation and forms

Shallow embedding of the repository's frontend logic:

* `buildTrends` / `groupDataByIndicator` / `processGroup` embed the
  aggregation in `fetchAllData` of
  `frontend/src/screens/Home/HomeScreen.js` (grouping by indicator,
  ascending stable sort by collected date, per-bound reference-range
  resolution, units and point extraction).
* `rangeTracesShown` embeds the guard at `renderChart` that adds the two
  range traces only when both resolved bounds are non-null.
* `reviewFormHandleSubmit` embeds `handleSubmit` of
  `frontend/src/screens/Review/ReviewForm.js`.
* The version-gated `RecordStore` upsert and the `requestUpload`
  validation live in the Flask backend / Lambda pipeline, which is not
  part of this repository snapshot; those are modelled from the spec and
  marked as such in their doc comments.

JavaScript numbers produced by `parseFloat` are modelled as `JsNum`:
either `nan` or an exact rational (`parseFloat` on the strings appearing
in records never needs IEEE rounding behaviour for the properties here;
`Infinity` inputs are out of the modelled fragment).  `new Date(s)` is
modelled by `dateVal`, an order-isomorphic integer encoding of the epoch
timestamp of a full ISO `YYYY-MM-DD` date (`none` = Invalid Date, whose
comparator result `NaN` the ECMAScript sort treats as `0`).  Only the
sign of the comparator is observable to `Array.prototype.sort`, so an
order-isomorphic key is an exact embedding of the sort; the sort itself
is required to be stable by ES2019, which `List.insertionSort` with the
non-strict comparator implements.
-/

/-- A JavaScript number as produced by `parseFloat`: `NaN` or a finite
value (modelled exactly as a rational). -/
inductive JsNum where
  | nan : JsNum
  | num : ℚ → JsNum
deriving DecidableEq, Repr

/-- One item of the `/clinical-data/trending/all` response, as consumed by
`fetchAllData` in `HomeScreen.js`.  Optional fields are `null`-able in the
JSON; numeric-looking fields arrive as strings and are parsed with
`parseFloat` at use sites, exactly as in the source. -/
structure Record where
  Indicator : String
  CollectedDate : String
  Result : String
  Units : Option String
  LowerRange : Option String
  UpperRange : Option String
  LaboratoryName : Option String
deriving DecidableEq, Repr

/-- One point of a trend series: the `{date, result, laboratory}` objects
built by `group.map` in `fetchAllData`. -/
structure TrendPoint where
  date : String
  result : JsNum
  laboratory : Option String
deriving DecidableEq, Repr

/-- The per-indicator chart object returned from `fetchAllData` step 4. -/
structure TrendChart where
  indicator : String
  lowerRange : Option JsNum
  upperRange : Option JsNum
  units : String
  data : List TrendPoint
deriving DecidableEq, Repr

/-- Numeric value of a list of decimal digit characters. -/
def digitsVal (cs : List Char) : Nat :=
  cs.foldl (fun n c => 10 * n + (c.toNat - 48)) 0

/-- `parseFloat` of JavaScript on the decimal fragment: skip leading
whitespace, optional sign, longest run of digits with an optional
fractional part and an optional exponent part; no digits at all gives
`NaN`.  Trailing garbage is ignored, as in JS.  The exact value
`sign * digits(ip.fp) * 10^e / 10^|fp|` is built with `mkRat` so that it
evaluates by kernel reduction. -/
def parseFloat (s : String) : JsNum :=
  let cs := s.toList.dropWhile (·.isWhitespace)
  let sgncs : Int × List Char :=
    match cs with
    | '-' :: t => (-1, t)
    | '+' :: t => (1, t)
    | _ => (1, cs)
  let ip := sgncs.2.takeWhile (·.isDigit)
  let cs2 := sgncs.2.dropWhile (·.isDigit)
  let fpcs : List Char × List Char :=
    match cs2 with
    | '.' :: t => (t.takeWhile (·.isDigit), t.dropWhile (·.isDigit))
    | _ => ([], cs2)
  if ip.isEmpty && fpcs.1.isEmpty then JsNum.nan
  else
    let m : Int := sgncs.1 * (digitsVal (ip ++ fpcs.1) : Int)
    let k : Nat := fpcs.1.length
    let e : Int :=
      match fpcs.2 with
      | c :: t =>
        if c = 'e' ∨ c = 'E' then
          let esgn : Int × List Char :=
            match t with
            | '-' :: t2 => (-1, t2)
            | '+' :: t2 => (1, t2)
            | _ => (1, t)
          let ed := esgn.2.takeWhile (·.isDigit)
          if ed.isEmpty then 0 else esgn.1 * (digitsVal ed : Int)
        else 0
      | _ => 0
    JsNum.num
      (if 0 ≤ e then mkRat (m * (10 : Int) ^ e.toNat) ((10 : Nat) ^ k)
       else mkRat m ((10 : Nat) ^ k * (10 : Nat) ^ (-e).toNat))

/-- Whether `y` is a Gregorian leap year. -/
def isLeapYear (y : Nat) : Bool :=
  (y % 4 == 0 && y % 100 != 0) || y % 400 == 0

/-- Number of days in month `m` of year `y`. -/
def daysInMonth (y m : Nat) : Nat :=
  if m = 2 then (if isLeapYear y then 29 else 28)
  else if m = 4 ∨ m = 6 ∨ m = 9 ∨ m = 11 then 30 else 31

/-- Split a character list on the dash separator (the shape check of the
ISO date format). -/
def splitDash : List Char → List (List Char)
  | [] => [[]]
  | c :: rest =>
    if c = '-' then [] :: splitDash rest
    else
      match splitDash rest with
      | g :: gs => (c :: g) :: gs
      | [] => [[c]]

/-- `new Date(s)` restricted to full ISO `YYYY-MM-DD` date strings,
encoded as the integer `y*10000 + m*100 + d`, which is strictly monotone
in the real epoch timestamp for valid calendar dates (only the sign of
timestamp differences is observable in the sort comparator).  `none`
models an Invalid Date (`NaN` timestamp). -/
def dateVal (s : String) : Option Int :=
  match splitDash s.toList with
  | [yc, mc, dc] =>
    if yc.length = 4 ∧ yc.all (·.isDigit) ∧ mc.length = 2 ∧ mc.all (·.isDigit) ∧
        dc.length = 2 ∧ dc.all (·.isDigit) then
      let y := digitsVal yc
      let m := digitsVal mc
      let d := digitsVal dc
      if 1 ≤ m ∧ m ≤ 12 ∧ 1 ≤ d ∧ d ≤ daysInMonth y m then
        some ((y : Int) * 10000 + (m : Int) * 100 + (d : Int))
      else none
    else none
  | _ => none

/-- The comparator `(a, b) => new Date(a.CollectedDate) - new Date(b.CollectedDate)`
passed to `group.sort` in `fetchAllData`; a `NaN` comparator result is
treated as `0` by the ECMAScript `SortCompare` operation. -/
def cmpDate (a b : Record) : Int :=
  match dateVal a.CollectedDate, dateVal b.CollectedDate with
  | some x, some y => x - y
  | _, _ => 0

/-- `a` sorts no later than `b` under the date comparator. -/
def dateLE (a b : Record) : Prop := cmpDate a b ≤ 0

instance : DecidableRel dateLE := fun _ _ => Int.decLe _ _

/-- `group.sort(comparator)`: `Array.prototype.sort` is stable (ES2019),
so with a consistent comparator its result is the unique sorted
permutation keeping ties in input order — which insertion sort with the
non-strict comparator computes. -/
def sortByDate (group : List Record) : List Record :=
  List.insertionSort dateLE group

/-- Whether a record's collected date parses to the key `k` (used to
state stability of the sort). -/
def hasKey (k : Int) (r : Record) : Bool :=
  dateVal r.CollectedDate = some k

/-- The range-resolution loop of `fetchAllData`: walk the sorted group,
fill each still-`null` bound from the first entry whose corresponding
raw bound is non-`null` (via `parseFloat`), and break once both are
set. -/
def resolveRanges : List Record → Option JsNum → Option JsNum → Option JsNum × Option JsNum
  | [], lo, hi => (lo, hi)
  | e :: rest, lo, hi =>
    let lo2 : Option JsNum :=
      match lo, e.LowerRange with
      | none, some v => some (parseFloat v)
      | l, _ => l
    let hi2 : Option JsNum :=
      match hi, e.UpperRange with
      | none, some v => some (parseFloat v)
      | h, _ => h
    if lo2.isSome ∧ hi2.isSome then (lo2, hi2) else resolveRanges rest lo2 hi2

/-- The body of `grouped.map(group => ...)` in `fetchAllData`: sort the
group ascending by collected date, resolve the two range bounds, and
build the chart object from the (sorted) first item and the mapped
points.  (`group[0]` is read after the in-place sort, so `firstItem` is
the earliest record; `firstItem.Units || ''` keeps a non-empty units
string and otherwise yields `''`.) -/
def processGroup (group : List Record) : TrendChart :=
  let sorted := sortByDate group
  let rr := resolveRanges sorted none none
  { indicator := ((sorted.head?).map (·.Indicator)).getD ""
    lowerRange := rr.1
    upperRange := rr.2
    units := (((sorted.head?).map (·.Units)).getD none).getD ""
    data := sorted.map (fun d => ⟨d.CollectedDate, parseFloat d.Result, d.LaboratoryName⟩) }

/-- `groupDataByIndicator` of `HomeScreen.js`: a plain object keyed by
the exact `Indicator` string, each key holding the matching items in
input order; `Object.values` then yields the groups.  (Indicator names
are not array-index strings, so object key order is insertion order.) -/
def addToGroup : List (String × List Record) → Record → List (String × List Record)
  | [], item => [(item.Indicator, [item])]
  | (k, g) :: rest, item =>
    if k = item.Indicator then (k, g ++ [item]) :: rest
    else (k, g) :: addToGroup rest item

/-- See `addToGroup`. -/
def groupDataByIndicator (data : List Record) : List (List Record) :=
  (data.foldl addToGroup []).map (·.2)

/-- Steps 3–4 of `fetchAllData`: the trend-aggregation pipeline
(`buildTrends` of the spec) applied to the fetched items. -/
def buildTrends (items : List Record) : List TrendChart :=
  (groupDataByIndicator items).map processGroup

/-- The guard of `renderChart` (HomeScreen.js line 151): the two
reference-range traces are added iff both resolved bounds are
non-null. -/
def rangeTracesShown (c : TrendChart) : Bool :=
  c.lowerRange.isSome && c.upperRange.isSome

/-- Number of Plotly traces `renderChart` draws for a chart: the results
trace plus, only when `rangeTracesShown`, the lower and upper range
traces. -/
def numDataTraces (c : TrendChart) : Nat :=
  if rangeTracesShown c then 3 else 1

/-- First-occurrence list of the distinct indicator names of `items`,
in input order (the object key order of `groupDataByIndicator`). -/
def firstKeys (items : List Record) : List String :=
  items.foldl (fun ks r => if r.Indicator ∈ ks then ks else ks ++ [r.Indicator]) []

/-- Characterized form of the assoc object the `data.forEach` loop of
`groupDataByIndicator` builds: one entry per distinct indicator in
first-seen order, holding that indicator's records in input order. -/
def groupsAssoc (p : List Record) : List (String × List Record) :=
  (firstKeys p).map (fun k => (k, p.filter (fun r => decide (r.Indicator = k))))

/-- The spec's resolution rule for units, stated in the spec's own words
for comparison with the source's behaviour: "the units taken from the
first record that specifies one", scanning the date-sorted group. -/
def unitsSpecResolved (g : List Record) : Option String :=
  (sortByDate g).findSome? (·.Units)

/-- The pre-filled edit form of `ReviewForm.js`: the seven `useState`
fields, in the object's insertion order (the order `for (const field in
formData)` visits them). -/
structure ReviewFormData where
  PatientName : String
  CollectedDate : String
  Result : String
  Units : String
  LowerRange : String
  UpperRange : String
  Indicator : String
deriving DecidableEq, Repr

/-- Outcome of the form submit handler: either the `onSubmit` callback is
invoked with the form data, or a form error is shown and nothing is
submitted. -/
inductive SubmitOutcome where
  | submitted : ReviewFormData → SubmitOutcome
  | formError : String → SubmitOutcome
deriving DecidableEq, Repr

/-- The key/value pairs of the `formData` object in insertion order. -/
def formFields (fd : ReviewFormData) : List (String × String) :=
  [("PatientName", fd.PatientName), ("CollectedDate", fd.CollectedDate),
   ("Result", fd.Result), ("Units", fd.Units), ("LowerRange", fd.LowerRange),
   ("UpperRange", fd.UpperRange), ("Indicator", fd.Indicator)]

/-- `handleSubmit` of `ReviewForm.js`: iterate the form fields in object
order; the first field equal to the empty string aborts with a form
error, otherwise `onSubmit(formData)` is called. -/
def reviewFormHandleSubmit (fd : ReviewFormData) : SubmitOutcome :=
  match (formFields fd).find? (fun p => p.2 = "") with
  | some p => SubmitOutcome.formError ("Please fill out the " ++ p.1 ++ " field.")
  | none => SubmitOutcome.submitted fd

/-- Modelled from the spec: the identity of an `IndicatorRecord` in the
RecordStore, `(user id, patient id, collected date, indicator name)`.
The RecordStore itself (DynamoDB behind the Flask backend) is not part
of this repository snapshot. -/
structure RecIdentity where
  userId : String
  patientId : String
  collectedDate : String
  indicator : String
deriving DecidableEq, Repr

/-- Modelled from the spec: a stored record, carrying the monotonic
record version used for upsert ordering next to its payload. -/
structure StoredRecord where
  version : Nat
  payload : Record
deriving DecidableEq, Repr

/-- Modelled from the spec: the version-gated upsert of the RecordStore
(backend code absent from `src/`): if an existing record shares the
identity, replace it only if the new record's version is not older;
otherwise insert. -/
def upsertRecord : List (RecIdentity × StoredRecord) → RecIdentity → StoredRecord →
    List (RecIdentity × StoredRecord)
  | [], i, r => [(i, r)]
  | (i0, r0) :: rest, i, r =>
    if i0 = i then
      (if r0.version ≤ r.version then (i, r) :: rest else (i0, r0) :: rest)
    else (i0, r0) :: upsertRecord rest i r

/-- Modelled from the spec: point lookup by identity in the RecordStore. -/
def lookupRecord (store : List (RecIdentity × StoredRecord)) (i : RecIdentity) :
    Option StoredRecord :=
  (store.find? (fun e => e.1 = i)).map (·.2)

/-- Modelled from the spec: a user edit's freshly minted version is
strictly greater than any version the pipeline could have produced for
the identity; `pipelineCap` is the largest pipeline-producible version
for that identity. -/
def mintEditVersion (pipelineCap : Nat) : Nat := pipelineCap + 1

/-- Modelled from the spec: the lifecycle states of a `PendingUpload`. -/
inductive PendingState where
  | ISSUED
  | CONFIRMED
  | EXPIRED
deriving DecidableEq, Repr

/-- Modelled from the spec: pending-upload metadata recorded by the
IngestionGateway when a write capability is issued (backend code absent
from `src/`). -/
structure PendingUpload where
  objectKey : String
  userId : String
  patientId : String
  indicatorNames : List String
  createdAt : Nat
  state : PendingState
deriving DecidableEq, Repr

/-- Modelled from the spec: the payload of a `requestUpload` call. -/
structure UploadRequest where
  userId : String
  patientId : String
  filename : String
  contentType : String
  indicatorNames : List String
deriving DecidableEq, Repr

/-- Modelled from the spec: the caller-visible ingestion errors of
`requestUpload`. -/
inductive UploadError where
  | InvalidRequest
  | QuotaExceeded
deriving DecidableEq, Repr

/-- Modelled from the spec: IngestionGateway state — a key counter (for
globally unique, user-scoped object keys) and the pending uploads. -/
structure GatewayState where
  counter : Nat
  pending : List PendingUpload
deriving DecidableEq, Repr

/-- Modelled from the spec: the accepted image content types (the exact
vocabulary is unspecified in the snapshot; only membership matters). -/
def acceptedImageTypes : List String := ["image/jpeg", "image/png"]

/-- Modelled from the spec: bound on outstanding ISSUED uploads per user. -/
def issuedUploadQuota : Nat := 10

/-- Modelled from the spec: `requestUpload(userId, patientId, filename,
contentType, indicatorNames)` — fails with `InvalidRequest` if the
indicator list is empty or the content type is unsupported, with
`QuotaExceeded` when too many ISSUED uploads are outstanding, and
otherwise records a PendingUpload in state ISSUED and returns the fresh
object key with a single-use write credential for it. -/
def requestUpload (st : GatewayState) (req : UploadRequest) (now : Nat) :
    GatewayState × Except UploadError (String × String) :=
  if req.indicatorNames = [] ∨ req.contentType ∉ acceptedImageTypes then
    (st, Except.error UploadError.InvalidRequest)
  else if issuedUploadQuota ≤
      (st.pending.filter
        (fun p => p.userId = req.userId ∧ p.state = PendingState.ISSUED)).length then
    (st, Except.error UploadError.QuotaExceeded)
  else
    let key := req.userId ++ "/" ++ toString st.counter
    ({ counter := st.counter + 1
       pending := st.pending ++
         [⟨key, req.userId, req.patientId, req.indicatorNames, now, PendingState.ISSUED⟩] },
     Except.ok (key, "credential-for:" ++ key))

-- Sanity checks of the embedding on concrete values (kept as `example`s,
-- they name no claim).
example : parseFloat "3.5" = JsNum.num (mkRat 7 2) := by decide
example : parseFloat "5.0" = JsNum.num 5 := by decide
example : parseFloat "abc" = JsNum.nan := by decide
example : parseFloat "" = JsNum.nan := by decide
example : parseFloat "-1e2" = JsNum.num (-100) := by decide
example : dateVal "2023-01-01" = some 20230101 := by decide
example : dateVal "2023-02-31" = none := by decide
example : dateVal "hello" = none := by decide

/-! ## Characterization of the range-resolution loop -/

/-- The early `break` of the range loop is unobservable: the loop returns,
for each bound independently, the already-found value or else the
`parseFloat` of the first non-null raw bound in scan order. -/
theorem resolveRanges_eq (l : List Record) (lo hi : Option JsNum) :
    resolveRanges l lo hi =
      (lo.or ((l.findSome? (·.LowerRange)).map parseFloat),
       hi.or ((l.findSome? (·.UpperRange)).map parseFloat)) := by
  induction l generalizing lo hi with
  | nil => cases lo <;> cases hi <;> simp [resolveRanges, Option.or]
  | cons e rest ih =>
    cases lo <;> cases hi <;>
      cases hL : e.LowerRange <;> cases hU : e.UpperRange <;>
        simp [resolveRanges, hL, hU, ih, List.findSome?_cons, Option.or]

theorem processGroup_lowerRange (g : List Record) :
    (processGroup g).lowerRange = ((sortByDate g).findSome? (·.LowerRange)).map parseFloat := by
  simp [processGroup, resolveRanges_eq, Option.or]

theorem processGroup_upperRange (g : List Record) :
    (processGroup g).upperRange = ((sortByDate g).findSome? (·.UpperRange)).map parseFloat := by
  simp [processGroup, resolveRanges_eq, Option.or]

theorem processGroup_data (g : List Record) :
    (processGroup g).data =
      (sortByDate g).map (fun d => ⟨d.CollectedDate, parseFloat d.Result, d.LaboratoryName⟩) :=
  rfl

theorem processGroup_units (g : List Record) :
    (processGroup g).units = (((sortByDate g).head?.map (·.Units)).getD none).getD "" :=
  rfl

/-! ## The sort: order and stability -/

theorem cmpDate_eq_sub {a b : Record} {x y : Int}
    (hx : dateVal a.CollectedDate = some x) (hy : dateVal b.CollectedDate = some y) :
    cmpDate a b = x - y := by
  simp [cmpDate, hx, hy]

/-- A strictly positive comparator value forces both dates to be valid,
with the first key strictly larger. -/
theorem cmpDate_pos_inv {a b : Record} (h : 0 < cmpDate a b) :
    ∃ x y, dateVal a.CollectedDate = some x ∧ dateVal b.CollectedDate = some y ∧ y < x := by
  unfold cmpDate at h
  rcases hx : dateVal a.CollectedDate with _ | x <;> rw [hx] at h <;>
    rcases hy : dateVal b.CollectedDate with _ | y <;> rw [hy] at h <;> simp at h
  exact ⟨x, y, rfl, rfl, by omega⟩

theorem dateLE_of_keys {a b : Record} {x y : Int}
    (hx : dateVal a.CollectedDate = some x) (hy : dateVal b.CollectedDate = some y)
    (h : x ≤ y) : dateLE a b := by
  unfold dateLE
  rw [cmpDate_eq_sub hx hy]
  omega

theorem keys_of_dateLE {a b : Record} {x y : Int}
    (hx : dateVal a.CollectedDate = some x) (hy : dateVal b.CollectedDate = some y)
    (h : dateLE a b) : x ≤ y := by
  unfold dateLE at h
  rw [cmpDate_eq_sub hx hy] at h
  omega

theorem dateLE_trans_valid {a b c : Record}
    (ha : (dateVal a.CollectedDate).isSome) (hb : (dateVal b.CollectedDate).isSome)
    (hc : (dateVal c.CollectedDate).isSome)
    (hab : dateLE a b) (hbc : dateLE b c) : dateLE a c := by
  rcases Option.isSome_iff_exists.mp ha with ⟨x, hx⟩
  rcases Option.isSome_iff_exists.mp hb with ⟨y, hy⟩
  rcases Option.isSome_iff_exists.mp hc with ⟨z, hz⟩
  exact dateLE_of_keys hx hz ((keys_of_dateLE hx hy hab).trans (keys_of_dateLE hy hz hbc))

theorem dateLE_total_valid {a b : Record}
    (ha : (dateVal a.CollectedDate).isSome) (hb : (dateVal b.CollectedDate).isSome)
    (h : ¬dateLE a b) : dateLE b a := by
  rcases Option.isSome_iff_exists.mp ha with ⟨x, hx⟩
  rcases Option.isSome_iff_exists.mp hb with ⟨y, hy⟩
  unfold dateLE at h
  rw [cmpDate_eq_sub hx hy] at h
  exact dateLE_of_keys hy hx (by omega)

theorem mem_orderedInsert_dateLE {x z : Record} {l : List Record} :
    z ∈ List.orderedInsert dateLE x l ↔ z = x ∨ z ∈ l :=
  List.mem_orderedInsert dateLE

/-- Inserting into a sorted list of valid-date records keeps it sorted. -/
theorem pairwise_orderedInsert_dateLE (x : Record) (l : List Record)
    (hx : (dateVal x.CollectedDate).isSome)
    (hl : ∀ y ∈ l, (dateVal y.CollectedDate).isSome)
    (h : l.Pairwise dateLE) :
    (List.orderedInsert dateLE x l).Pairwise dateLE := by
  induction l with
  | nil => simp [List.orderedInsert]
  | cons b tl ih =>
    rw [List.pairwise_cons] at h
    by_cases hxb : dateLE x b
    · rw [List.orderedInsert, if_pos hxb]
      refine List.pairwise_cons.mpr ⟨?_, List.pairwise_cons.mpr ⟨h.1, h.2⟩⟩
      intro z hz
      rcases List.mem_cons.mp hz with rfl | hz
      · exact hxb
      · exact dateLE_trans_valid hx (hl b (List.mem_cons_self b tl))
          (hl z (List.mem_cons_of_mem b hz)) hxb (h.1 z hz)
    · rw [List.orderedInsert, if_neg hxb]
      refine List.pairwise_cons.mpr ⟨?_, ih (fun y hy => hl y (List.mem_cons_of_mem b hy)) h.2⟩
      intro z hz
      rcases mem_orderedInsert_dateLE.mp hz with rfl | hz
      · exact dateLE_total_valid hx (hl b (List.mem_cons_self b tl)) hxb
      · exact h.1 z hz

/-- The sorted group is pairwise ordered by the date comparator whenever
all collected dates parse. -/
theorem sortByDate_pairwise (g : List Record)
    (h : ∀ r ∈ g, (dateVal r.CollectedDate).isSome) :
    (sortByDate g).Pairwise dateLE := by
  induction g with
  | nil => simp [sortByDate, List.insertionSort]
  | cons a tl ih =>
    have hmem : ∀ y ∈ sortByDate tl, (dateVal y.CollectedDate).isSome := by
      intro y hy
      exact h y (List.mem_cons_of_mem a ((List.perm_insertionSort dateLE tl).mem_iff.mp hy))
    exact pairwise_orderedInsert_dateLE a (sortByDate tl)
      (h a (List.mem_cons_self a tl)) hmem
      (ih (fun r hr => h r (List.mem_cons_of_mem a hr)))

/-- Stability at one key: inserting a record whose date has key `k` puts
it in front of the other key-`k` records, because everything it is
inserted behind compares strictly smaller (hence has a different key).
Holds without any validity hypothesis. -/
theorem filter_key_orderedInsert (x : Record) (l : List Record) (k : Int) :
    (List.orderedInsert dateLE x l).filter (hasKey k) =
      if hasKey k x then x :: l.filter (hasKey k) else l.filter (hasKey k) := by
  rw [List.orderedInsert_eq_take_drop]
  rw [List.filter_append]
  have htake : (l.takeWhile fun b => decide ¬dateLE x b).filter (hasKey k) = [] ∨
      ¬hasKey k x := by
    by_cases hx : hasKey k x
    · left
      rw [List.filter_eq_nil_iff]
      intro b hb
      have hq := List.mem_takeWhile_imp hb
      have hnd : ¬dateLE x b := by simpa using hq
      have hpos : 0 < cmpDate x b := by
        unfold dateLE at hnd
        omega
      rcases cmpDate_pos_inv hpos with ⟨xk, bk, hxk, hbk, hlt⟩
      have hxkk : xk = k := by
        have : dateVal x.CollectedDate = some k := by
          simpa [hasKey] using hx
        rw [hxk] at this
        exact Option.some_injective _ this
      simp only [hasKey, hbk, decide_eq_true_eq]
      intro hcontra
      have : bk = k := Option.some_injective _ hcontra
      omega
    · right
      exact hx
  by_cases hx : hasKey k x
  · rw [if_pos hx]
    rcases htake with htake | hcontra
    · rw [htake]
      have : (x :: l.dropWhile fun b => decide ¬dateLE x b).filter (hasKey k) =
          x :: (l.dropWhile fun b => decide ¬dateLE x b).filter (hasKey k) := by
        rw [List.filter_cons, if_pos hx]
      rw [this]
      have hsplit := List.takeWhile_append_dropWhile (fun b => decide ¬dateLE x b) l
      conv_rhs => rw [← hsplit]
      rw [List.filter_append, htake]
      simp
    · exact absurd hx hcontra
  · rw [if_neg hx]
    have : (x :: l.dropWhile fun b => decide ¬dateLE x b).filter (hasKey k) =
        (l.dropWhile fun b => decide ¬dateLE x b).filter (hasKey k) := by
      rw [List.filter_cons, if_neg hx]
    rw [this]
    have hsplit := List.takeWhile_append_dropWhile (fun b => decide ¬dateLE x b) l
    conv_rhs => rw [← hsplit]
    rw [List.filter_append]

/-- Stability of the sort: for every date key, the key's records appear
in the output exactly in their input order. -/
theorem sortByDate_stable (g : List Record) (k : Int) :
    (sortByDate g).filter (hasKey k) = g.filter (hasKey k) := by
  induction g with
  | nil => rfl
  | cons a tl ih =>
    have : sortByDate (a :: tl) = List.orderedInsert dateLE a (sortByDate tl) := rfl
    rw [this, filter_key_orderedInsert, List.filter_cons]
    by_cases hx : hasKey k a <;> simp [hx, ih]

/-! ## Characterization of the grouping -/

theorem firstKeys_append_single (p : List Record) (x : Record) :
    firstKeys (p ++ [x]) =
      if x.Indicator ∈ firstKeys p then firstKeys p else firstKeys p ++ [x.Indicator] := by
  simp [firstKeys, List.foldl_append]

theorem mem_foldl_keys (p : List Record) (acc : List String) (k : String) :
    (k ∈ p.foldl (fun ks r => if r.Indicator ∈ ks then ks else ks ++ [r.Indicator]) acc) ↔
      k ∈ acc ∨ ∃ r ∈ p, r.Indicator = k := by
  induction p generalizing acc with
  | nil => simp
  | cons r tl ih =>
    rw [List.foldl_cons, ih]
    by_cases h : r.Indicator ∈ acc
    · simp only [if_pos h]
      constructor
      · rintro (hk | htl)
        · exact Or.inl hk
        · exact Or.inr (by simpa using Or.inr htl)
      · rintro (hk | ⟨s, hs, hsk⟩)
        · exact Or.inl hk
        · rcases List.mem_cons.mp hs with rfl | hs
          · exact Or.inl (hsk ▸ h)
          · exact Or.inr ⟨s, hs, hsk⟩
    · simp only [if_neg h, List.mem_append, List.mem_singleton]
      constructor
      · rintro ((hk | hk) | htl)
        · exact Or.inl hk
        · exact Or.inr ⟨r, List.mem_cons_self r tl, hk.symm⟩
        · rcases htl with ⟨s, hs, hsk⟩
          exact Or.inr ⟨s, List.mem_cons_of_mem r hs, hsk⟩
      · rintro (hk | ⟨s, hs, hsk⟩)
        · exact Or.inl (Or.inl hk)
        · rcases List.mem_cons.mp hs with rfl | hs
          · exact Or.inl (Or.inr hsk.symm)
          · exact Or.inr ⟨s, hs, hsk⟩

theorem mem_firstKeys (p : List Record) (k : String) :
    k ∈ firstKeys p ↔ ∃ r ∈ p, r.Indicator = k := by
  simpa using mem_foldl_keys p [] k

theorem nodup_foldl_keys (p : List Record) (acc : List String) (h : acc.Nodup) :
    (p.foldl (fun ks r => if r.Indicator ∈ ks then ks else ks ++ [r.Indicator]) acc).Nodup := by
  induction p generalizing acc with
  | nil => exact h
  | cons r tl ih =>
    rw [List.foldl_cons]
    by_cases hmem : r.Indicator ∈ acc
    · rw [if_pos hmem]
      exact ih acc h
    · rw [if_neg hmem]
      exact ih _ (by simp [List.nodup_append, h, hmem])

theorem nodup_firstKeys (p : List Record) : (firstKeys p).Nodup :=
  nodup_foldl_keys p [] List.nodup_nil

theorem addToGroup_of_forall_ne (L : List (String × List Record)) (x : Record)
    (h : ∀ e ∈ L, e.1 ≠ x.Indicator) :
    addToGroup L x = L ++ [(x.Indicator, [x])] := by
  induction L with
  | nil => rfl
  | cons e tl ih =>
    obtain ⟨k, g⟩ := e
    have hne : ¬(k = x.Indicator) := h (k, g) (List.mem_cons_self _ tl)
    simp only [addToGroup, if_neg hne, List.cons_append, List.cons.injEq, true_and]
    exact ih (fun e he => h e (List.mem_cons_of_mem _ he))

theorem addToGroup_mem_keys (p : List Record) (x : Record) (ks : List String)
    (hnd : ks.Nodup) (hmem : x.Indicator ∈ ks) :
    addToGroup (ks.map (fun k => (k, p.filter (fun r => decide (r.Indicator = k))))) x =
      ks.map (fun k => (k, (p ++ [x]).filter (fun r => decide (r.Indicator = k)))) := by
  induction ks with
  | nil => cases hmem
  | cons k1 tl ih =>
    rw [List.map_cons, List.map_cons]
    by_cases h1 : k1 = x.Indicator
    · subst h1
      simp only [addToGroup, if_pos rfl]
      have hhead : p.filter (fun r => decide (r.Indicator = x.Indicator)) ++ [x] =
          (p ++ [x]).filter (fun r => decide (r.Indicator = x.Indicator)) := by
        simp [List.filter_append, List.filter_cons]
      have htail : List.map (fun k => (k, p.filter (fun r => decide (r.Indicator = k)))) tl =
          List.map (fun k => (k, (p ++ [x]).filter (fun r => decide (r.Indicator = k)))) tl := by
        apply List.map_congr_left
        intro k hk
        have hne : ¬(x.Indicator = k) := fun hcontra => (List.nodup_cons.mp hnd).1 (hcontra ▸ hk)
        simp [List.filter_append, List.filter_cons, hne]
      rw [hhead, htail]
      simp
    · have hmem' : x.Indicator ∈ tl := by
        rcases List.mem_cons.mp hmem with hk | hk
        · exact absurd hk.symm h1
        · exact hk
      have hne : ¬(x.Indicator = k1) := fun hcontra => h1 hcontra.symm
      simp only [addToGroup, if_neg h1]
      rw [ih (List.nodup_cons.mp hnd).2 hmem']
      congr 1
      simp [List.filter_append, List.filter_cons, hne]

theorem groupsAssoc_snoc (p : List Record) (x : Record) :
    addToGroup (groupsAssoc p) x = groupsAssoc (p ++ [x]) := by
  by_cases hmem : x.Indicator ∈ firstKeys p
  · rw [groupsAssoc, groupsAssoc, firstKeys_append_single, if_pos hmem]
    exact addToGroup_mem_keys p x (firstKeys p) (nodup_firstKeys p) hmem
  · rw [groupsAssoc, groupsAssoc, firstKeys_append_single, if_neg hmem]
    rw [addToGroup_of_forall_ne]
    · rw [List.map_append]
      congr 1
      · apply List.map_congr_left
        intro k hk
        have hne : ¬(x.Indicator = k) := fun hcontra => hmem (hcontra ▸ hk)
        simp [List.filter_append, List.filter_cons, hne]
      · have hnil : p.filter (fun r => decide (r.Indicator = x.Indicator)) = [] := by
          rw [List.filter_eq_nil_iff]
          intro r hr
          simp only [decide_eq_true_eq]
          intro hcontra
          exact hmem ((mem_firstKeys p x.Indicator).mpr ⟨r, hr, hcontra⟩)
        simp [List.filter_append, List.filter_cons, hnil]
    · intro e he
      obtain ⟨k, hk, rfl⟩ := List.mem_map.mp he
      exact fun hcontra => hmem (hcontra ▸ hk)

theorem foldl_addToGroup_eq (items : List Record) :
    items.foldl addToGroup [] = groupsAssoc items := by
  induction items using List.reverseRecOn with
  | nil => rfl
  | append_singleton p x ih =>
    rw [List.foldl_append, List.foldl_cons, List.foldl_nil, ih, groupsAssoc_snoc]

/-- `groupDataByIndicator` partitions the input by the exact indicator
string: one group per distinct indicator in first-seen order, each group
being the input's records with that indicator, in input order. -/
theorem groupDataByIndicator_eq (items : List Record) :
    groupDataByIndicator items =
      (firstKeys items).map (fun k => items.filter (fun r => decide (r.Indicator = k))) := by
  rw [groupDataByIndicator, foldl_addToGroup_eq, groupsAssoc, List.map_map]
  rfl

/-- A nodup list containing `a` filters down to exactly `[a]` under
equality with `a`. -/
theorem filter_eq_singleton_of_nodup {a : String} {ks : List String}
    (hnd : ks.Nodup) (ha : a ∈ ks) :
    ks.filter (fun k => decide (a = k)) = [a] := by
  induction ks with
  | nil => cases ha
  | cons k1 tl ih =>
    rw [List.filter_cons]
    by_cases h1 : a = k1
    · subst h1
      rw [if_pos (by simp)]
      have hnil : tl.filter (fun k => decide (a = k)) = [] := by
        rw [List.filter_eq_nil_iff]
        intro k hk
        simp only [decide_eq_true_eq]
        exact fun hak => (List.nodup_cons.mp hnd).1 (hak ▸ hk)
      rw [hnil]
    · rw [if_neg (by simp [h1])]
      exact ih (List.nodup_cons.mp hnd).2 ((List.mem_cons.mp ha).resolve_left h1)

/-! ## Claims about the trend aggregation -/

/-- C1: for every indicator group, `buildTrends` resolves the reference
range by scanning the records in ascending collected-date order and
taking, independently, the first non-null lower bound and the first
non-null upper bound; on the spec's two-record example — 2023-01-01 with
only lowerRange 3.5 and 2023-06-01 with only upperRange 5.0 — the
resolved range is {3.5, 5.0}, the two bounds coming from different
records. -/
theorem range_resolution_per_bound_independent_earliest :
    (∀ g : List Record,
        (processGroup g).lowerRange =
          ((sortByDate g).findSome? (·.LowerRange)).map parseFloat ∧
        (processGroup g).upperRange =
          ((sortByDate g).findSome? (·.UpperRange)).map parseFloat) ∧
    (buildTrends
        [⟨"HDL", "2023-01-01", "1.0", none, some "3.5", none, none⟩,
         ⟨"HDL", "2023-06-01", "2.0", none, none, some "5.0", none⟩]).map
        (fun c => (c.lowerRange, c.upperRange)) =
      [(some (JsNum.num (mkRat 7 2)), some (JsNum.num 5))] :=
  ⟨fun g => ⟨processGroup_lowerRange g, processGroup_upperRange g⟩, by decide⟩

/-- C5: aggregating a user's zero records yields the empty series list —
`buildTrends` is a total function on lists and signals no error; the
caller decides what an empty result means. -/
theorem buildTrends_empty_input : buildTrends [] = [] := rfl

/-- C6: whenever one of the two bounds is never supplied by any record of
a group, the chart renders no reference range at all — neither a full
nor a partial single-bound range trace — and only the results trace is
drawn. -/
theorem range_omitted_when_bound_never_appears :
    ∀ g : List Record,
      ((∀ r ∈ g, r.LowerRange = none) ∨ (∀ r ∈ g, r.UpperRange = none)) →
      rangeTracesShown (processGroup g) = false ∧ numDataTraces (processGroup g) = 1 := by
  intro g h
  have hshow : rangeTracesShown (processGroup g) = false := by
    rcases h with h | h
    · have hnone : (sortByDate g).findSome? (·.LowerRange) = none := by
        rw [List.findSome?_eq_none_iff]
        intro r hr
        exact h r ((List.perm_insertionSort dateLE g).mem_iff.mp hr)
      simp [rangeTracesShown, processGroup_lowerRange, hnone]
    · have hnone : (sortByDate g).findSome? (·.UpperRange) = none := by
        rw [List.findSome?_eq_none_iff]
        intro r hr
        exact h r ((List.perm_insertionSort dateLE g).mem_iff.mp hr)
      simp [rangeTracesShown, processGroup_upperRange, hnone]
  exact ⟨hshow, by simp [numDataTraces, hshow]⟩

/-- Witness for C6 at a concrete one-record group with no bounds. -/
theorem range_omitted_when_bound_never_appears_witness :
    rangeTracesShown (processGroup [⟨"A1C", "2023-01-01", "7", none, none, none, none⟩]) =
        false ∧
    numDataTraces (processGroup [⟨"A1C", "2023-01-01", "7", none, none, none, none⟩]) = 1 :=
  range_omitted_when_bound_never_appears
    [⟨"A1C", "2023-01-01", "7", none, none, none, none⟩] (Or.inl (by decide))

theorem sum_map_add_nat {α : Type} (l : List α) (f g : α → Nat) :
    (l.map (fun x => f x + g x)).sum = (l.map f).sum + (l.map g).sum := by
  induction l with
  | nil => rfl
  | cons a tl ih =>
    simp only [List.map_cons, List.sum_cons, ih]
    omega

theorem sum_map_ite_one (ks : List String) (p : String → Bool) :
    (ks.map (fun k => if p k then 1 else 0)).sum = (ks.filter p).length := by
  induction ks with
  | nil => rfl
  | cons k tl ih =>
    rw [List.map_cons, List.sum_cons, List.filter_cons]
    by_cases h : p k <;> (simp [h, ih]; try omega)

/-- The groups of `groupDataByIndicator` cover the input records with no
loss and no duplication: their lengths sum to the input length. -/
theorem sum_groups_length (items : List Record) :
    ((groupDataByIndicator items).map List.length).sum = items.length := by
  rw [groupDataByIndicator_eq, List.map_map]
  have hnd := nodup_firstKeys items
  have main : ∀ (its : List Record), (∀ r ∈ its, r.Indicator ∈ firstKeys items) →
      ((firstKeys items).map
        (fun k => (its.filter (fun r => decide (r.Indicator = k))).length)).sum =
      its.length := by
    intro its
    induction its with
    | nil => intro _; simp
    | cons r tl ih =>
      intro hcov
      have h1 : ∀ k ∈ firstKeys items,
          (List.length ∘ fun k => List.filter (fun r' => decide (r'.Indicator = k)) (r :: tl)) k
            = (fun k => (if decide (r.Indicator = k) then 1 else 0) +
                (tl.filter (fun r' => decide (r'.Indicator = k))).length) k := by
        intro k _
        simp only [Function.comp_apply, List.filter_cons]
        by_cases h : r.Indicator = k <;> (simp [h]; try omega)
      calc ((firstKeys items).map
              (fun k => ((r :: tl).filter (fun r' => decide (r'.Indicator = k))).length)).sum
          = ((firstKeys items).map
              (fun k => (if decide (r.Indicator = k) then 1 else 0) +
                (tl.filter (fun r' => decide (r'.Indicator = k))).length)).sum := by
            exact congrArg List.sum (List.map_congr_left (fun k hk => h1 k hk))
        _ = ((firstKeys items).map (fun k => if decide (r.Indicator = k) then 1 else 0)).sum +
            ((firstKeys items).map
              (fun k => (tl.filter (fun r' => decide (r'.Indicator = k))).length)).sum :=
            sum_map_add_nat _ _ _
        _ = 1 + tl.length := by
            rw [ih (fun s hs => hcov s (List.mem_cons_of_mem r hs)),
              sum_map_ite_one,
              filter_eq_singleton_of_nodup hnd (hcov r (List.mem_cons_self r tl))]
            simp
        _ = (r :: tl).length := by
            rw [List.length_cons]
            omega
  have := main items (fun r hr => (mem_firstKeys items r.Indicator).mpr ⟨r, hr, rfl⟩)
  rw [← this]
  exact congrArg List.sum (List.map_congr_left (fun k _ => rfl))

/-- C9: every record fetched yields exactly one `(date, result,
laboratory)` point (the groups' point counts sum to the input length,
and within a group the points are exactly the mapped records) whose
result is the `parseFloat` of the stored `Result` string — non-numeric
results are not filtered out but emitted as NaN — and a non-null
non-numeric range bound is taken as the resolved bound (NaN), ending the
scan for that bound. -/
theorem points_one_per_record_parseFloat_nan :
    (∀ items : List Record,
        ((buildTrends items).map (fun c => c.data.length)).sum = items.length) ∧
    (∀ g : List Record,
        (processGroup g).data =
          (sortByDate g).map
            (fun d => ⟨d.CollectedDate, parseFloat d.Result, d.LaboratoryName⟩) ∧
        ((processGroup g).data).length = g.length) ∧
    parseFloat "positive" = JsNum.nan ∧
    (processGroup
        [⟨"CRP", "2023-01-01", "high", none, some "abc", none, none⟩,
         ⟨"CRP", "2023-06-01", "4", none, some "5", none, none⟩]).lowerRange =
      some JsNum.nan ∧
    (processGroup
        [⟨"CRP", "2023-01-01", "high", none, some "abc", none, none⟩,
         ⟨"CRP", "2023-06-01", "4", none, some "5", none, none⟩]).data =
      [⟨"2023-01-01", JsNum.nan, none⟩, ⟨"2023-06-01", parseFloat "4", none⟩] := by
  have hlen : ∀ g : List Record, ((processGroup g).data).length = g.length := by
    intro g
    rw [processGroup_data, List.length_map]
    exact List.length_insertionSort dateLE g
  refine ⟨?_, fun g => ⟨processGroup_data g, hlen g⟩, by decide, by decide, by decide⟩
  intro items
  rw [buildTrends, List.map_map]
  have hcong : ∀ g ∈ groupDataByIndicator items,
      ((fun c => c.data.length) ∘ processGroup) g = List.length g :=
    fun g _ => hlen g
  rw [List.map_congr_left hcong]
  exact sum_groups_length items

/-- C3: within each group `buildTrends` emits its points sorted ascending
by collected date (all dates parsing), and the sort is stable — records
with equal collected dates keep their relative input order, stated as
filter-invariance for every date key. -/
theorem points_sorted_ascending_stable :
    ∀ g : List Record, (∀ r ∈ g, (dateVal r.CollectedDate).isSome) →
      ((processGroup g).data).Pairwise
        (fun p q => (dateVal p.date).getD 0 ≤ (dateVal q.date).getD 0) ∧
      (∀ k : Int, (sortByDate g).filter (hasKey k) = g.filter (hasKey k)) ∧
      (processGroup g).data =
        (sortByDate g).map
          (fun d => ⟨d.CollectedDate, parseFloat d.Result, d.LaboratoryName⟩) := by
  intro g h
  refine ⟨?_, fun k => sortByDate_stable g k, processGroup_data g⟩
  rw [processGroup_data]
  have hmem : ∀ r ∈ sortByDate g, (dateVal r.CollectedDate).isSome :=
    fun r hr => h r ((List.perm_insertionSort dateLE g).mem_iff.mp hr)
  have hp2 : (sortByDate g).Pairwise
      (fun a b => (dateVal a.CollectedDate).getD 0 ≤ (dateVal b.CollectedDate).getD 0) := by
    refine (sortByDate_pairwise g h).imp_of_mem ?_
    intro a b ha hb hab
    rcases Option.isSome_iff_exists.mp (hmem a ha) with ⟨x, hx⟩
    rcases Option.isSome_iff_exists.mp (hmem b hb) with ⟨y, hy⟩
    rw [hx, hy]
    simpa using keys_of_dateLE hx hy hab
  exact hp2.map _ (fun a b hab => hab)

/-- Witness for C3 at a three-record group with a duplicated date: the
emitted points are date-sorted, with the two 2023-05-01 records kept in
input order. -/
theorem points_sorted_ascending_stable_witness :
    ((processGroup
        [⟨"X", "2023-05-01", "1", none, none, none, some "L1"⟩,
         ⟨"X", "2023-01-01", "2", none, none, none, some "L2"⟩,
         ⟨"X", "2023-05-01", "3", none, none, none, some "L3"⟩]).data).Pairwise
      (fun p q => (dateVal p.date).getD 0 ≤ (dateVal q.date).getD 0) :=
  (points_sorted_ascending_stable
    [⟨"X", "2023-05-01", "1", none, none, none, some "L1"⟩,
     ⟨"X", "2023-01-01", "2", none, none, none, some "L2"⟩,
     ⟨"X", "2023-05-01", "3", none, none, none, some "L3"⟩] (by decide)).1

/-- C4 counterexample: the earliest record of the group has no units and
a later record supplies "mg/dL"; the emitted units is "" — taken from
the first (sorted) record only — while the first record that specifies a
units value would give "mg/dL". -/
theorem units_not_from_first_specifying_record :
    (buildTrends
        [⟨"HDL", "2023-01-01", "1.0", none, none, none, none⟩,
         ⟨"HDL", "2023-06-01", "2.0", some "mg/dL", none, none, none⟩]).map (·.units) =
      [""] ∧
    unitsSpecResolved
        [⟨"HDL", "2023-01-01", "1.0", none, none, none, none⟩,
         ⟨"HDL", "2023-06-01", "2.0", some "mg/dL", none, none, none⟩] = some "mg/dL" ∧
    ("" : String) ≠ "mg/dL" :=
  ⟨by decide, by decide, by decide⟩

/-- C4 (amended): the units of an emitted TrendSeries come from the first
record of the date-sorted group alone — the empty string when that
record's units are null — and records without units are not skipped in
favour of later ones. -/
theorem units_from_earliest_record_only :
    ∀ (g : List Record) (hd : Record), (sortByDate g).head? = some hd →
      (processGroup g).units = hd.Units.getD "" := by
  intro g hd h
  rw [processGroup_units, h]
  rfl

/-- Witness for the amended C4 at the counterexample's input. -/
theorem units_from_earliest_record_only_witness :
    (processGroup
        [⟨"HDL", "2023-01-01", "1.0", none, none, none, none⟩,
         ⟨"HDL", "2023-06-01", "2.0", some "mg/dL", none, none, none⟩]).units =
      (Record.mk "HDL" "2023-01-01" "1.0" none none none none).Units.getD "" :=
  units_from_earliest_record_only
    [⟨"HDL", "2023-01-01", "1.0", none, none, none, none⟩,
     ⟨"HDL", "2023-06-01", "2.0", some "mg/dL", none, none, none⟩]
    (Record.mk "HDL" "2023-01-01" "1.0" none none none none) (by decide)

/-- C7: `buildTrends` partitions the fetched records by exact indicator
string — every record lies in exactly one group, records of one group
share their indicator, and records with equal indicators share a
group. -/
theorem grouping_partitions_by_exact_indicator :
    ∀ items : List Record,
      (∀ r ∈ items,
        (groupDataByIndicator items).countP (fun g => decide (r ∈ g)) = 1) ∧
      (∀ g ∈ groupDataByIndicator items, ∀ r1 ∈ g, ∀ r2 ∈ g,
        r1.Indicator = r2.Indicator) ∧
      (∀ r1 ∈ items, ∀ r2 ∈ items, r1.Indicator = r2.Indicator →
        ∃ g ∈ groupDataByIndicator items, r1 ∈ g ∧ r2 ∈ g) := by
  intro items
  refine ⟨?_, ?_, ?_⟩
  · intro r hr
    rw [groupDataByIndicator_eq, List.countP_map, List.countP_eq_length_filter]
    have hcong : ∀ k ∈ firstKeys items,
        ((fun g => decide (r ∈ g)) ∘
          fun k => items.filter (fun r' => decide (r'.Indicator = k))) k =
        (fun k => decide (r.Indicator = k)) k := by
      intro k _
      by_cases hrk : r.Indicator = k <;> simp [List.mem_filter, hr, hrk]
    rw [List.filter_congr hcong,
      filter_eq_singleton_of_nodup (nodup_firstKeys items)
        ((mem_firstKeys items r.Indicator).mpr ⟨r, hr, rfl⟩)]
    rfl
  · intro g hg r1 h1 r2 h2
    rw [groupDataByIndicator_eq] at hg
    obtain ⟨k, _, rfl⟩ := List.mem_map.mp hg
    have e1 := (List.mem_filter.mp h1).2
    have e2 := (List.mem_filter.mp h2).2
    simp only [decide_eq_true_eq] at e1 e2
    rw [e1, e2]
  · intro r1 h1 r2 h2 heq
    refine ⟨items.filter (fun r => decide (r.Indicator = r1.Indicator)), ?_, ?_, ?_⟩
    · rw [groupDataByIndicator_eq]
      exact List.mem_map_of_mem _
        ((mem_firstKeys items r1.Indicator).mpr ⟨r1, h1, rfl⟩)
    · exact List.mem_filter.mpr ⟨h1, by simp⟩
    · exact List.mem_filter.mpr ⟨h2, by simp [heq]⟩

/-- Witness for C7: two same-indicator records land in one common group. -/
theorem grouping_partitions_by_exact_indicator_witness :
    ∃ g ∈ groupDataByIndicator
        [⟨"HDL", "2023-01-01", "1", none, none, none, none⟩,
         ⟨"HDL", "2023-06-01", "2", none, none, none, none⟩],
      (⟨"HDL", "2023-01-01", "1", none, none, none, none⟩ : Record) ∈ g ∧
      (⟨"HDL", "2023-06-01", "2", none, none, none, none⟩ : Record) ∈ g :=
  (grouping_partitions_by_exact_indicator
      [⟨"HDL", "2023-01-01", "1", none, none, none, none⟩,
       ⟨"HDL", "2023-06-01", "2", none, none, none, none⟩]).2.2
    ⟨"HDL", "2023-01-01", "1", none, none, none, none⟩ (by decide)
    ⟨"HDL", "2023-06-01", "2", none, none, none, none⟩ (by decide) (by decide)

/-! ## Claims about the RecordStore upsert, the gateway and the form -/

/-- Lookup after a version-gated upsert: the new record lands unless an
existing record for the identity is strictly newer. -/
theorem lookup_upsertRecord (store : List (RecIdentity × StoredRecord)) (i : RecIdentity)
    (r : StoredRecord) :
    lookupRecord (upsertRecord store i r) i =
      match lookupRecord store i with
      | some r0 => if r0.version ≤ r.version then some r else some r0
      | none => some r := by
  induction store with
  | nil => simp [lookupRecord, upsertRecord, List.find?]
  | cons e rest ih =>
    obtain ⟨i0, r0⟩ := e
    by_cases h : i0 = i
    · subst h
      by_cases hv : r0.version ≤ r.version
      · simp [upsertRecord, hv, lookupRecord, List.find?]
      · simp [upsertRecord, hv, lookupRecord, List.find?]
    · have hp : ¬((fun e => decide (e.1 = i)) ((i0, r0) : RecIdentity × StoredRecord) = true) := by
        simp [h]
      simp only [upsertRecord, if_neg h, lookupRecord]
      have hfalse : (decide ((i0, r0).1 = i)) = false := by simp [h]
      simp only [List.find?, hfalse]
      exact ih

/-- C2: a user edit carries a freshly minted version strictly greater
than any version the pipeline could have produced for the identity
(`mintEditVersion cap = cap + 1 > cap` for pipeline versions bounded by
`cap`), so after the edit a subsequent pipeline re-extraction — whose
version is at most `cap`, hence equal-or-lower than the edit's — never
replaces it under the version-gated upsert (which replaces only if the
new record's version is not older). -/
theorem user_edit_never_overwritten_by_pipeline :
    ∀ (store : List (RecIdentity × StoredRecord)) (i : RecIdentity) (cap pipeV : Nat)
      (editPayload pipePayload : Record),
      pipeV ≤ cap →
      (∀ s : StoredRecord, lookupRecord store i = some s →
        s.version ≤ mintEditVersion cap) →
      cap < mintEditVersion cap ∧
      lookupRecord
          (upsertRecord (upsertRecord store i ⟨mintEditVersion cap, editPayload⟩)
            i ⟨pipeV, pipePayload⟩) i =
        some ⟨mintEditVersion cap, editPayload⟩ := by
  intro store i cap pipeV ep pp hpipe hstore
  refine ⟨Nat.lt_succ_self cap, ?_⟩
  have h1 : lookupRecord (upsertRecord store i ⟨mintEditVersion cap, ep⟩) i =
      some ⟨mintEditVersion cap, ep⟩ := by
    rw [lookup_upsertRecord]
    cases hs : lookupRecord store i with
    | none => rfl
    | some s => simp [hstore s hs]
  rw [lookup_upsertRecord, h1]
  have hgt : ¬((⟨mintEditVersion cap, ep⟩ : StoredRecord).version ≤ pipeV) := by
    simp only [mintEditVersion]
    omega
  simp [hgt]

/-- Witness for C2: on an empty store, an edit minted above cap 5 survives
a later pipeline write with version 3. -/
theorem user_edit_never_overwritten_by_pipeline_witness :
    5 < mintEditVersion 5 ∧
    lookupRecord
        (upsertRecord
          (upsertRecord [] ⟨"u1", "p1", "2023-01-01", "HDL"⟩
            ⟨mintEditVersion 5, ⟨"HDL", "2023-01-01", "2.0", none, none, none, none⟩⟩)
          ⟨"u1", "p1", "2023-01-01", "HDL"⟩
          ⟨3, ⟨"HDL", "2023-01-01", "1.0", none, none, none, none⟩⟩)
        ⟨"u1", "p1", "2023-01-01", "HDL"⟩ =
      some ⟨mintEditVersion 5, ⟨"HDL", "2023-01-01", "2.0", none, none, none, none⟩⟩ :=
  user_edit_never_overwritten_by_pipeline [] ⟨"u1", "p1", "2023-01-01", "HDL"⟩ 5 3
    ⟨"HDL", "2023-01-01", "2.0", none, none, none, none⟩
    ⟨"HDL", "2023-01-01", "1.0", none, none, none, none⟩
    (by decide) (by intro s hs; simp [lookupRecord] at hs)

/-- C8: `requestUpload` with an empty indicator list or an unaccepted
content type fails with `InvalidRequest`; the gateway state is unchanged
(no PendingUpload is created) and no write credential is returned. -/
theorem requestUpload_invalid_rejected :
    ∀ (st : GatewayState) (req : UploadRequest) (now : Nat),
      (req.indicatorNames = [] ∨ acceptedImageTypes.contains req.contentType = false) →
      (requestUpload st req now).1 = st ∧
      (requestUpload st req now).2 = Except.error UploadError.InvalidRequest := by
  intro st req now h
  have hcond : req.indicatorNames = [] ∨ req.contentType ∉ acceptedImageTypes := by
    rcases h with h | h
    · exact Or.inl h
    · exact Or.inr (by simpa using h)
  have hre : requestUpload st req now = (st, Except.error UploadError.InvalidRequest) := by
    unfold requestUpload
    rw [if_pos hcond]
  rw [hre]
  exact ⟨rfl, rfl⟩

/-- Witness for C8: an empty indicator list is rejected with no state
change. -/
theorem requestUpload_invalid_rejected_witness :
    (requestUpload ⟨0, []⟩ ⟨"u1", "p1", "a.jpg", "image/jpeg", []⟩ 0).1 = ⟨0, []⟩ ∧
    (requestUpload ⟨0, []⟩ ⟨"u1", "p1", "a.jpg", "image/jpeg", []⟩ 0).2 =
      Except.error UploadError.InvalidRequest :=
  requestUpload_invalid_rejected ⟨0, []⟩ ⟨"u1", "p1", "a.jpg", "image/jpeg", []⟩ 0
    (Or.inl rfl)

/-- C10: the review form's submit handler invokes the upsert callback
exactly when all seven fields are non-empty strings; any empty field —
including units and the range bounds — produces a form error and nothing
is submitted. -/
theorem review_form_submits_iff_all_fields_nonempty :
    ∀ fd : ReviewFormData,
      (reviewFormHandleSubmit fd = SubmitOutcome.submitted fd ↔
        (fd.PatientName ≠ "" ∧ fd.CollectedDate ≠ "" ∧ fd.Result ≠ "" ∧ fd.Units ≠ "" ∧
          fd.LowerRange ≠ "" ∧ fd.UpperRange ≠ "" ∧ fd.Indicator ≠ "")) ∧
      ((fd.PatientName = "" ∨ fd.CollectedDate = "" ∨ fd.Result = "" ∨ fd.Units = "" ∨
          fd.LowerRange = "" ∨ fd.UpperRange = "" ∨ fd.Indicator = "") →
        ∃ msg, reviewFormHandleSubmit fd = SubmitOutcome.formError msg) := by
  intro fd
  cases hf : (formFields fd).find? (fun p => p.2 = "") with
  | some pr =>
    have hpr2 : pr.2 = "" := by simpa using List.find?_some hf
    have hone := List.mem_of_find?_eq_some hf
    simp only [formFields, List.mem_cons, List.not_mem_nil, or_false] at hone
    constructor
    · simp only [reviewFormHandleSubmit, hf]
      constructor
      · intro hcontra
        cases hcontra
      · intro hall
        exfalso
        rcases hone with h | h | h | h | h | h | h <;> rw [h] at hpr2
        · exact hall.1 hpr2
        · exact hall.2.1 hpr2
        · exact hall.2.2.1 hpr2
        · exact hall.2.2.2.1 hpr2
        · exact hall.2.2.2.2.1 hpr2
        · exact hall.2.2.2.2.2.1 hpr2
        · exact hall.2.2.2.2.2.2 hpr2
    · intro _
      exact ⟨_, by unfold reviewFormHandleSubmit; rw [hf]⟩
  | none =>
    have hforall := List.find?_eq_none.mp hf
    have hP : ¬(fd.PatientName = "") := by
      simpa using hforall ("PatientName", fd.PatientName) (by simp [formFields])
    have hC : ¬(fd.CollectedDate = "") := by
      simpa using hforall ("CollectedDate", fd.CollectedDate) (by simp [formFields])
    have hR : ¬(fd.Result = "") := by
      simpa using hforall ("Result", fd.Result) (by simp [formFields])
    have hU : ¬(fd.Units = "") := by
      simpa using hforall ("Units", fd.Units) (by simp [formFields])
    have hL : ¬(fd.LowerRange = "") := by
      simpa using hforall ("LowerRange", fd.LowerRange) (by simp [formFields])
    have hUp : ¬(fd.UpperRange = "") := by
      simpa using hforall ("UpperRange", fd.UpperRange) (by simp [formFields])
    have hI : ¬(fd.Indicator = "") := by
      simpa using hforall ("Indicator", fd.Indicator) (by simp [formFields])
    constructor
    · simp only [reviewFormHandleSubmit, hf]
      exact ⟨fun _ => ⟨hP, hC, hR, hU, hL, hUp, hI⟩, fun _ => trivial⟩
    · intro hdisj
      rcases hdisj with h | h | h | h | h | h | h
      · exact absurd h hP
      · exact absurd h hC
      · exact absurd h hR
      · exact absurd h hU
      · exact absurd h hL
      · exact absurd h hUp
      · exact absurd h hI

/-- Witness for C10: a fully filled form is submitted unchanged. -/
theorem review_form_submits_iff_all_fields_nonempty_witness :
    reviewFormHandleSubmit ⟨"Ann", "2023-01-01", "5", "mg", "1", "9", "HDL"⟩ =
      SubmitOutcome.submitted ⟨"Ann", "2023-01-01", "5", "mg", "1", "9", "HDL"⟩ :=
  ((review_form_submits_iff_all_fields_nonempty
      ⟨"Ann", "2023-01-01", "5", "mg", "1", "9", "HDL"⟩).1).mpr (by decide)
